import Mathlib

/-!
# Verification of `mylib::BufWriter` (mycpp/mylib2.cc) and of the pending-signal queue

The output buffer of `mycpp/mylib2.cc` is embedded as pure functions on an explicit heap
block.  Conventions of the embedding:

* a byte is a `Fin 256`; a `Str` is the list of its `len(s)` bytes (`s->data_`);
* a heap block is the list of its bytes; `realloc` keeps the common prefix and the bytes it
  adds are indeterminate in C (the model fills them with `0`, and every statement below is
  about the first `len_` bytes only, all of which the code has written);
* a store outside the block is undefined behaviour: every store is bounds-checked and the
  operation returns `none` when a check fails;
* `int` values (`len_`, `n`, `upper_bound`, `p - data_`) are natural numbers: the statements
  are about executions in which they stay in the range of `int` (signed overflow is
  undefined behaviour in C++); the range of `int` is explicit where a value is formatted
  (`format_d`), and the signedness of plain `char` is a parameter of `format_r`.

The class `pyos::SignalSafe` (`cpp/core.h`) is exercised by `cpp/core_test.cc` but is not
among the sources; it is modelled from the specification in namespace `pyos`.
-/

namespace mylib

/-- One byte of memory. -/
abbrev Byte := Fin 256

/-- Bytes of a `Str`: `s->data_[0 .. len(s))`. -/
abbrev Str := List Byte

/-- State of a `BufWriter`: the heap block `data_` (empty list: `nullptr`) and `len_`. -/
structure BufWriter where
  data_ : List Byte
  len_ : Nat
deriving DecidableEq

/-- Valid buffer state: the `len_` logical bytes lie inside the allocated block. -/
def BufWriter.WF (w : BufWriter) : Prop := w.len_ ≤ w.data_.length

instance (w : BufWriter) : Decidable w.WF := by
  unfold BufWriter.WF; exact inferInstance

/-- Logical content of the buffer: the first `len_` bytes of the block. -/
def BufWriter.content (w : BufWriter) : List Byte := w.data_.take w.len_

/-- A freshly constructed `BufWriter`: `data_ = nullptr`, `len_ = 0`. -/
def BufWriter.empty : BufWriter := { data_ := [], len_ := 0 }

/-- Model of `realloc(block, size)`: the first `min size |block|` bytes are kept, the bytes
added (indeterminate in C) are `0`. -/
def realloc (block : List Byte) (size : Nat) : List Byte :=
  block.take size ++ List.replicate (size - block.length) 0

/-- Model of `memcpy(block + dst, src, |src|)`, undefined when the range leaves the block. -/
def memcpy (block : List Byte) (dst : Nat) (src : List Byte) : Option (List Byte) :=
  if dst + src.length ≤ block.length then
    some (block.take dst ++ src ++ block.drop (dst + src.length))
  else none

/-- Single store `block[i] = b`, undefined when `i` is outside the block. -/
def store (block : List Byte) (i : Nat) (b : Byte) : Option (List Byte) :=
  if i < block.length then some (block.set i b) else none

/-- Method `BufWriter::write(Str* s)`. -/
def BufWriter.write (w : BufWriter) (s : Str) : Option BufWriter :=
  let orig_len := w.len_
  let n := s.length
  let len_ := w.len_ + n
  let data_ := realloc w.data_ (len_ + 1)
  (memcpy data_ orig_len s).bind fun data_ =>
  (store data_ len_ 0).bind fun data_ =>
  some { data_ := data_, len_ := len_ }

/-- Method `BufWriter::write_const(const char* s, int len)`, `s` holding the `len` bytes. -/
def BufWriter.write_const (w : BufWriter) (s : List Byte) : Option BufWriter :=
  let orig_len := w.len_
  let len_ := w.len_ + s.length
  let data_ := realloc w.data_ (len_ + 1)
  (memcpy data_ orig_len s).bind fun data_ =>
  (store data_ len_ 0).bind fun data_ =>
  some { data_ := data_, len_ := len_ }

/-- Sample buffer holding `"hi"` and its NUL. -/
def BufWriter.hi : BufWriter := { data_ := [104, 105, 0], len_ := 2 }

/-- Sample input: a single-quote, NUL, the byte 0xc8 and a backslash. -/
def sampleInput : Str := [39, 0, 200, 92]

/-- Sample input: a double-quote, NUL, the byte 0xc8 and a backslash. -/
def sampleInput2 : Str := [34, 0, 200, 92]

/-- Smallest value of a 32-bit `int`. -/
def INT_MIN : Int := -2147483648

/-- The calls `write(s1); ...; write(sk)` in order. -/
def BufWriter.writes (w : BufWriter) (ss : List Str) : Option BufWriter :=
  ss.foldlM BufWriter.write w

/-! ### `format_d` -/

/-- Decimal digits of `n`, most significant first, in front of `acc`; `fuel` bounds the
number of digits produced. -/
def decDigits : Nat → Nat → List Byte → List Byte
  | 0, _, acc => acc
  | fuel + 1, n, acc =>
    if n / 10 = 0 then Fin.ofNat (48 + n % 10) :: acc
    else decDigits fuel (n / 10) (Fin.ofNat (48 + n % 10) :: acc)

/-- Decimal text of a natural number: no leading zero, `"0"` for zero. -/
def decNat (n : Nat) : List Byte := decDigits (n + 1) n []

/-- Text that the conversion `%d` produces: `-` in front of a negative value. -/
def dec (i : Int) : List Byte :=
  if i < 0 then 45 :: decNat i.natAbs else decNat i.natAbs

/-- Value denoted by a string of decimal digit characters. -/
def decValue (l : List Byte) : Nat := l.foldl (fun v d => 10 * v + (d.val - 48)) 0

/-- Model of `snprintf(block + dst, size, "%d", i)`: at most `size - 1` characters of the text and
then a NUL are stored; the value returned is the length of the whole text. -/
def snprintf_d (block : List Byte) (dst size : Nat) (i : Int) :
    Option (List Byte × Nat) :=
  if size = 0 then some (block, (dec i).length)
  else (memcpy block dst ((dec i).take (size - 1) ++ [0])).map fun blk =>
    (blk, (dec i).length)

/-- Method `BufWriter::format_d(int i)`; the constant `kIntBufSize` of `my_runtime.h` is a
parameter. -/
def BufWriter.format_d (kIntBufSize : Nat) (w : BufWriter) (i : Int) : Option BufWriter :=
  let data_ := realloc w.data_ (w.len_ + kIntBufSize)
  (snprintf_d data_ w.len_ kIntBufSize i).bind fun r =>
  some { data_ := r.1, len_ := w.len_ + r.2 }

/-! ### `format_r` -/

/-- Write position of `format_r`: the block, the pointer `p` as an index into it, and the
ghost field `hi`, one past the largest index stored to so far. -/
structure Cursor where
  block : List Byte
  p : Nat
  hi : Nat
deriving DecidableEq

/-- The statement `*p++ = b`. -/
def Cursor.put (c : Cursor) (b : Byte) : Option Cursor :=
  (store c.block c.p b).map fun blk =>
    { block := blk, p := c.p + 1, hi := max c.hi (c.p + 1) }

/-- Lowercase hexadecimal digit character of `d < 16` (the digit table of `%x`). -/
def hexDigit (d : Nat) : Byte :=
  [48, 49, 50, 51, 52, 53, 54, 55, 56, 57, 97, 98, 99, 100, 101, 102].getD d 0

/-- The statements `sprintf(p, "\\x%02x", v); p += 4` for `v ≤ 255`, where `%02x` prints
exactly two digits: five bytes are stored, the last one the NUL of `sprintf`. -/
def Cursor.sprintf_x (c : Cursor) (v : Nat) : Option Cursor :=
  (memcpy c.block c.p [92, 120, hexDigit (v / 16), hexDigit (v % 16), 0]).map fun blk =>
    { block := blk, p := c.p + 4, hi := max c.hi (c.p + 5) }

/-- Value of a `char` holding byte `b` once promoted to `int`; `signedChar` tells whether
plain `char` is signed on the platform. -/
def charToInt (signedChar : Bool) (b : Byte) : Int :=
  if signedChar = true ∧ 128 ≤ b.val then (b.val : Int) - 256 else (b.val : Int)

/-- Test `memchr(s->data_, c, n) != NULL`: the byte `c` occurs among the `n` bytes of `s`. -/
def memchr (s : Str) (c : Byte) : Bool := decide (c ∈ s)

/-- Quote selected by `format_r`: `'` unless `s` has a `'` and no `"`. -/
def format_r_quote (s : Str) : Byte :=
  if memchr s 39 = true ∧ ¬ memchr s 34 = true then 34 else 39

/-- Body of the loop of `format_r` for the input byte `b`; `c & 0xff` is `c mod 256`. -/
def format_r_step (signedChar : Bool) (quote : Byte) (cur : Cursor) (b : Byte) :
    Option Cursor :=
  let c := charToInt signedChar b
  if c = charToInt signedChar quote ∨ c = 92 then
    (cur.put 92).bind fun cur => cur.put b
  else if c = 9 then
    (cur.put 92).bind fun cur => cur.put 116
  else if c = 10 then
    (cur.put 92).bind fun cur => cur.put 110
  else if c = 13 then
    (cur.put 92).bind fun cur => cur.put 114
  else if c < 32 ∨ c ≥ 127 then
    cur.sprintf_x (c % 256).toNat
  else
    cur.put b

/-- Method `BufWriter::format_r` up to and including `*p = 0`: the worst-case reservation, the
opening quote, the loop, the closing quote and the terminating NUL. -/
def BufWriter.format_r_fill (signedChar : Bool) (w : BufWriter) (s : Str) : Option Cursor :=
  let n := s.length
  let upper_bound := n * 4 + 2
  let data_ := realloc w.data_ (w.len_ + upper_bound + 1)
  let quote := format_r_quote s
  let cur : Cursor := { block := data_, p := w.len_, hi := 0 }
  (cur.put quote).bind fun cur =>
  (s.foldlM (format_r_step signedChar quote) cur).bind fun cur =>
  (cur.put quote).bind fun cur =>
  (store cur.block cur.p 0).map fun blk =>
    { block := blk, p := cur.p, hi := max cur.hi (cur.p + 1) }

/-- Method `BufWriter::format_r(Str* s)`: fill, `len_ = p - data_`, then shrink the block. -/
def BufWriter.format_r (signedChar : Bool) (w : BufWriter) (s : Str) : Option BufWriter :=
  (w.format_r_fill signedChar s).bind fun cur =>
  let len_ := cur.p
  some { data_ := realloc cur.block (len_ + 1), len_ := len_ }

/-- Escape of one byte in the words of the specification, for the quote byte `q`. -/
def escSpec (q b : Byte) : List Byte :=
  if b = q ∨ b = 92 then [92, b]
  else if b = 9 then [92, 116]
  else if b = 10 then [92, 110]
  else if b = 13 then [92, 114]
  else if b.val < 0x20 ∨ 0x7f ≤ b.val then
    [92, 120, hexDigit (b.val / 16), hexDigit (b.val % 16)]
  else [b]

/-- The quoted text of the specification: quote, escaped bytes, quote. -/
def reprSpec (q : Byte) (s : Str) : List Byte := [q] ++ s.flatMap (escSpec q) ++ [q]

/-- Relation between two cursors: going from `cur` to `cur1` kept the block size, advanced
`p` over exactly the bytes `out`, which now follow the bytes that were below `p`, and
stored nothing at or above index `cur1.p + 1` that had not been stored to before. -/
def Emits (cur cur1 : Cursor) (out : List Byte) : Prop :=
  cur1.block.length = cur.block.length ∧ cur1.p = cur.p + out.length
    ∧ cur1.block.take cur1.p = cur.block.take cur.p ++ out
    ∧ cur1.hi ≤ max cur.hi (cur1.p + 1)

/-! ### A decoder for the output of `format_r` -/

/-- Value of a lowercase hexadecimal digit character. -/
def unhexDigit (b : Byte) : Option Nat :=
  if 48 ≤ b.val ∧ b.val ≤ 57 then some (b.val - 48)
  else if 97 ≤ b.val ∧ b.val ≤ 102 then some (b.val - 87)
  else none

/-- Decodes the first item of an escaped text: the byte it stands for and the rest of the
text; `none` at the closing quote `q` and on a truncated escape. -/
def unescapeStep (q : Byte) : List Byte → Option (Byte × List Byte)
  | [] => none
  | c :: rest =>
    if c = 92 then
      match rest with
      | [] => none
      | e :: rest1 =>
        if e = 116 then some (9, rest1)
        else if e = 110 then some (10, rest1)
        else if e = 114 then some (13, rest1)
        else if e = 120 then
          match rest1 with
          | h :: l :: rest2 =>
            (unhexDigit h).bind fun hv =>
            (unhexDigit l).bind fun lv => some (Fin.ofNat (16 * hv + lv), rest2)
          | _ => none
        else some (e, rest1)
    else if c = q then none
    else some (c, rest)

/-- Decodes an escaped text that ends with the closing quote `q`; `fuel` bounds the number
of items. -/
def unescape (q : Byte) : Nat → List Byte → Option (List Byte)
  | 0, _ => none
  | fuel + 1, l =>
    if l = [q] then some []
    else (unescapeStep q l).bind fun r => (unescape q fuel r.2).map fun t => r.1 :: t

/-- Decoder of the quoted text: the first byte is the quote, the rest is unescaped up to
the closing quote. -/
def unrepr (l : List Byte) : Option (List Byte) :=
  match l with
  | [] => none
  | q :: body => unescape q body.length body

end mylib

namespace pyos

/-- Modelled from the spec: the class `pyos::SignalSafe` of `cpp/core.h`, which is not among
the sources (only its test `cpp/core_test.cc` is).  Data model of the PendingSignalQueue: a
fixed-capacity ordered sequence of signal numbers, a "last signal" latch, and the signal
number configured for terminal resize. -/
structure SignalSafe where
  pending_signals_ : List Int
  capacity_ : Nat
  last_sig_num_ : Int
  sigwinch_code_ : Int
deriving DecidableEq

/-- Modelled from the spec: the queue at startup (`cpp/core.h` is missing): empty sequence,
latch initialised to the sentinel, resize code not configured yet. -/
def InitSignalSafe (UNTRAPPED_SIGWINCH : Int) (capacity : Nat) : SignalSafe :=
  { pending_signals_ := [], capacity_ := capacity,
    last_sig_num_ := UNTRAPPED_SIGWINCH, sigwinch_code_ := UNTRAPPED_SIGWINCH }

/-- Modelled from the spec: `SignalSafe::UpdateFromSignalHandler` (`cpp/core.h` is missing):
"append `signalNumber` to the queue if capacity remains (else drop), and unconditionally
update the last-signal latch"; a resize delivery is recorded in the latch with the
configured code, the untrapped sentinel before `SetSigWinchCode`. -/
def SignalSafe.UpdateFromSignalHandler (SIGWINCH : Int) (s : SignalSafe) (sig_num : Int) :
    SignalSafe :=
  { pending_signals_ :=
      if s.pending_signals_.length < s.capacity_ then s.pending_signals_ ++ [sig_num]
      else s.pending_signals_,
    capacity_ := s.capacity_,
    last_sig_num_ := if sig_num = SIGWINCH then s.sigwinch_code_ else sig_num,
    sigwinch_code_ := s.sigwinch_code_ }

/-- Modelled from the spec: `SignalSafe::SetSigWinchCode` (`cpp/core.h` is missing):
"configures which signal number represents a terminal-resize event". -/
def SignalSafe.SetSigWinchCode (s : SignalSafe) (code : Int) : SignalSafe :=
  { s with sigwinch_code_ := code }

/-- Modelled from the spec: `SignalSafe::LastSignal` (`cpp/core.h` is missing): "returns
the latch value at any time". -/
def SignalSafe.LastSignal (s : SignalSafe) : Int := s.last_sig_num_

/-- Modelled from the spec: `SignalSafe::TakePendingSignals` (`cpp/core.h` is missing):
"returns the full ordered sequence of signal numbers accumulated since the last call, and
conceptually empties the queue"; the result is the sequence and the state left behind. -/
def SignalSafe.TakePendingSignals (s : SignalSafe) : List Int × SignalSafe :=
  (s.pending_signals_, { s with pending_signals_ := [] })

/-- Sample queue: empty, capacity 2, latch and resize code at the sentinel -1. -/
def SignalSafe.small : SignalSafe :=
  { pending_signals_ := [], capacity_ := 2, last_sig_num_ := -1, sigwinch_code_ := -1 }

/-- A run of deliveries: the handler is invoked once per signal, in order. -/
def SignalSafe.deliver (SIGWINCH : Int) (s : SignalSafe) (sigs : List Int) : SignalSafe :=
  sigs.foldl (SignalSafe.UpdateFromSignalHandler SIGWINCH) s

end pyos

namespace mylib

/-! ## Memory lemmas -/

theorem realloc_length (block : List Byte) (size : Nat) :
    (realloc block size).length = size := by
  simp [realloc]; omega

theorem realloc_take (block : List Byte) (size k : Nat) (hk : k ≤ size)
    (hb : k ≤ block.length) : (realloc block size).take k = block.take k := by
  simp [realloc, List.take_append_eq_append_take, List.take_take, hk]
  omega

theorem memcpy_some (block : List Byte) (dst : Nat) (src : List Byte)
    (h : dst + src.length ≤ block.length) :
    memcpy block dst src
      = some (block.take dst ++ src ++ block.drop (dst + src.length)) := by
  simp [memcpy, h]

theorem store_some (block : List Byte) (i : Nat) (b : Byte) (h : i < block.length) :
    store block i b = some (block.set i b) := by
  simp [store, h]

theorem take_set_of_le (block : List Byte) (i k : Nat) (b : Byte) (h : k ≤ i) :
    (block.set i b).take k = block.take k := by
  induction block generalizing i k with
  | nil => simp
  | cons a t ih =>
    cases k with
    | zero => simp
    | succ k =>
      cases i with
      | zero => omega
      | succ i => simp [List.set, ih i k (by omega)]

/-- Effect of one `write` on a valid buffer. -/
theorem write_spec (w : BufWriter) (s : Str) (hw : w.WF) :
    ∃ w', w.write s = some w' ∧ w'.WF ∧ w'.content = w.content ++ s
      ∧ w'.len_ = w.len_ + s.length := by
  unfold BufWriter.WF at hw
  have h1 : w.len_ + s.length ≤ (realloc w.data_ (w.len_ + s.length + 1)).length := by
    rw [realloc_length]; omega
  have hrun : w.write s = some
      { data_ := ((realloc w.data_ (w.len_ + s.length + 1)).take w.len_ ++ s ++
          (realloc w.data_ (w.len_ + s.length + 1)).drop (w.len_ + s.length)).set
            (w.len_ + s.length) 0,
        len_ := w.len_ + s.length } := by
    simp only [BufWriter.write]
    rw [memcpy_some _ _ _ h1]
    simp only [Option.some_bind]
    rw [store_some]
    · rfl
    · simp [realloc_length]; omega
  refine ⟨_, hrun, ?_, ?_, rfl⟩
  · simp [BufWriter.WF, realloc_length]; omega
  · simp only [BufWriter.content]
    rw [take_set_of_le _ _ _ _ (le_refl _)]
    rw [List.take_append_of_le_length (by simp [realloc_length]; omega)]
    rw [List.take_append_eq_append_take]
    simp only [List.length_take, realloc_length]
    rw [List.take_take, realloc_take _ _ _ (by omega) (by omega)]
    have e1 : min (w.len_ + s.length) w.len_ = w.len_ := by omega
    have e2 : w.len_ + s.length - min w.len_ (w.len_ + s.length + 1) = s.length := by omega
    rw [e1, e2, List.take_length]

theorem write_const_eq_write (w : BufWriter) (s : Str) : w.write_const s = w.write s := rfl

theorem content_length (w : BufWriter) (hw : w.WF) : w.content.length = w.len_ := by
  unfold BufWriter.WF at hw
  simp [BufWriter.content]; omega

theorem writes_spec (ss : List Str) : ∀ (w : BufWriter), w.WF →
    ∃ w', w.writes ss = some w' ∧ w'.WF ∧ w'.content = w.content ++ ss.flatten
      ∧ w'.len_ = w.len_ + (ss.map List.length).sum := by
  induction ss with
  | nil =>
    intro w hw
    exact ⟨w, rfl, hw, by simp, by simp⟩
  | cons s t ih =>
    intro w hw
    obtain ⟨w1, h1, hwf1, hc1, hl1⟩ := write_spec w s hw
    obtain ⟨w2, h2, hwf2, hc2, hl2⟩ := ih w1 hwf1
    refine ⟨w2, ?_, hwf2, ?_, ?_⟩
    · simp only [BufWriter.writes, List.foldlM_cons, h1] at h2 ⊢
      exact h2
    · rw [hc2, hc1]; simp
    · rw [hl2, hl1]; simp; omega

theorem flatten_singletons (bs : List Byte) : (bs.map fun b => [b]).flatten = bs := by
  induction bs with
  | nil => rfl
  | cons b t ih => simpa using ih

theorem sum_length_singletons (bs : List Byte) :
    ((bs.map fun b => [b]).map List.length).sum = bs.length := by
  induction bs with
  | nil => rfl
  | cons b t ih =>
    simp only [List.map_cons, List.sum_cons, List.length_cons, List.length_nil, ih]; omega

/-- C1: on a valid buffer (content `c`, `len_ = |c|`) the calls `write(s1); ...; write(sk)`
all succeed and leave the content `c ++ s1 ++ ... ++ sk` with
`len_ = |c| + |s1| + ... + |sk|`; the old bytes are unchanged (they are the first `|c|` bytes
of the new content), `write_const` does the same as `write`, and appending the bytes of
`bs` one at a time yields `c ++ bs`. -/
theorem write_sequence_appends (w : BufWriter) (ss : List Str) (bs : List Byte)
    (hw : w.WF) :
    w.content.length = w.len_
    ∧ (∃ w', w.writes ss = some w' ∧ w'.content = w.content ++ ss.flatten
        ∧ w'.len_ = w.content.length + (ss.map List.length).sum
        ∧ w'.content.length = w'.len_
        ∧ w'.content.take w.content.length = w.content)
    ∧ (∃ w', w.writes (bs.map fun b => [b]) = some w' ∧ w'.content = w.content ++ bs
        ∧ w'.len_ = w.len_ + bs.length)
    ∧ (∀ s, w.write_const s = w.write s) := by
  refine ⟨content_length w hw, ?_, ?_, fun s => rfl⟩
  · obtain ⟨w', h, hwf, hc, hl⟩ := writes_spec ss w hw
    refine ⟨w', h, hc, ?_, content_length w' hwf, ?_⟩
    · rw [hl, content_length w hw]
    · rw [hc]; simp
  · obtain ⟨w', h, _, hc, hl⟩ := writes_spec (bs.map fun b => [b]) w hw
    refine ⟨w', h, ?_, ?_⟩
    · rw [hc, flatten_singletons]
    · rw [hl, sum_length_singletons]

/-- Instance of C1 at a concrete input: the buffer `"hi"`, the writes `"a"`, `"bc"`, and
the bytes `x`, `y` written one at a time. -/
theorem write_sequence_appends_witness :
    BufWriter.hi.WF
    ∧ (BufWriter.hi.content.length = BufWriter.hi.len_
    ∧ (∃ w', BufWriter.hi.writes [[97], [98, 99]] = some w'
        ∧ w'.content = BufWriter.hi.content ++ [[97], [98, 99]].flatten
        ∧ w'.len_ = BufWriter.hi.content.length + ([[97], [98, 99]].map List.length).sum
        ∧ w'.content.length = w'.len_
        ∧ w'.content.take BufWriter.hi.content.length = BufWriter.hi.content)
    ∧ (∃ w', BufWriter.hi.writes ([120, 121].map fun b => [b]) = some w'
        ∧ w'.content = BufWriter.hi.content ++ [120, 121]
        ∧ w'.len_ = BufWriter.hi.len_ + [120, 121].length)
    ∧ (∀ s, BufWriter.hi.write_const s = BufWriter.hi.write s)) :=
  ⟨by decide, write_sequence_appends BufWriter.hi [[97], [98, 99]] [120, 121] (by decide)⟩

/-! ## `format_r` -/

theorem take_succ_set (block : List Byte) (i : Nat) (b : Byte) (h : i < block.length) :
    (block.set i b).take (i + 1) = block.take i ++ [b] := by
  induction block generalizing i with
  | nil => simp at h
  | cons a t ih =>
    cases i with
    | zero => simp
    | succ i =>
      simp only [List.length_cons] at h
      simp [List.set, ih i (by omega)]

theorem take_patch (l : List Byte) (p : Nat) (x y : List Byte) (k : Nat)
    (hp : p ≤ l.length) (hk : k ≤ x.length) :
    (l.take p ++ x ++ y).take (p + k) = l.take p ++ x.take k := by
  have hl : (l.take p).length = p := by simp; omega
  rw [List.append_assoc, List.take_append_eq_append_take, hl]
  have e1 : p + k - p = k := by omega
  rw [e1, List.take_take, List.take_append_of_le_length hk]
  have e2 : min (p + k) p = p := by omega
  rw [e2]

theorem Emits.refl (cur : Cursor) : Emits cur cur [] := by
  simp [Emits]

theorem Emits.trans {a b c : Cursor} {o1 o2 : List Byte} (h1 : Emits a b o1)
    (h2 : Emits b c o2) : Emits a c (o1 ++ o2) := by
  obtain ⟨l1, p1, t1, g1⟩ := h1
  obtain ⟨l2, p2, t2, g2⟩ := h2
  refine ⟨by omega, by simp; omega, ?_, ?_⟩
  · rw [t2, t1, List.append_assoc]
  · have : b.p ≤ c.p := by omega
    omega

theorem put_emits (cur : Cursor) (b : Byte) (h : cur.p < cur.block.length) :
    ∃ cur1, cur.put b = some cur1 ∧ Emits cur cur1 [b] := by
  refine ⟨{ block := cur.block.set cur.p b, p := cur.p + 1, hi := max cur.hi (cur.p + 1) },
    ?_, ?_⟩
  · simp [Cursor.put, store_some _ _ _ h]
  · refine ⟨by simp, by simp, take_succ_set _ _ _ h, ?_⟩
    simp only; omega

theorem put2_emits (cur : Cursor) (a b : Byte) (h : cur.p + 2 ≤ cur.block.length) :
    ∃ cur1, ((cur.put a).bind fun c => c.put b) = some cur1 ∧ Emits cur cur1 [a, b] := by
  obtain ⟨c1, e1, m1⟩ := put_emits cur a (by omega)
  obtain ⟨c2, e2, m2⟩ := put_emits c1 b (by rw [m1.1, m1.2.1]; simp; omega)
  exact ⟨c2, by simp [e1, e2], m1.trans m2⟩

theorem sprintf_x_emits (cur : Cursor) (v : Nat) (h : cur.p + 5 ≤ cur.block.length) :
    ∃ cur1, cur.sprintf_x v = some cur1
      ∧ Emits cur cur1 [92, 120, hexDigit (v / 16), hexDigit (v % 16)] := by
  have hrun : cur.sprintf_x v = some
      { block := cur.block.take cur.p
          ++ [92, 120, hexDigit (v / 16), hexDigit (v % 16), 0]
          ++ cur.block.drop (cur.p + 5),
        p := cur.p + 4, hi := max cur.hi (cur.p + 5) } := by
    simp only [Cursor.sprintf_x]
    rw [memcpy_some _ _ _ (by simpa using h)]
    rfl
  refine ⟨_, hrun, ?_⟩
  · refine ⟨by simp; omega, by simp, ?_, by simp⟩
    exact take_patch cur.block cur.p [92, 120, hexDigit (v / 16), hexDigit (v % 16), 0]
      (cur.block.drop (cur.p + 5)) 4 (by omega) (by simp)

theorem charToInt_inj (sc : Bool) (a b : Byte) : charToInt sc a = charToInt sc b ↔ a = b := by
  constructor
  · intro h
    apply Fin.ext
    have ha := a.isLt
    have hb := b.isLt
    unfold charToInt at h
    split_ifs at h <;> omega
  · intro h; rw [h]

theorem charToInt_eq_small (sc : Bool) (b : Byte) (v : Byte) (hv : v.val < 128) :
    charToInt sc b = (v.val : Int) ↔ b = v := by
  have h := charToInt_inj sc b v
  have e : charToInt sc v = (v.val : Int) := by
    unfold charToInt
    rw [if_neg]
    omega
  rw [e] at h
  exact h

theorem charToInt_unprintable (sc : Bool) (b : Byte) :
    (charToInt sc b < 32 ∨ charToInt sc b ≥ 127) ↔ (b.val < 0x20 ∨ 0x7f ≤ b.val) := by
  have hb := b.isLt
  unfold charToInt
  split_ifs <;> omega

theorem charToInt_and_0xff (sc : Bool) (b : Byte) : (charToInt sc b % 256).toNat = b.val := by
  have hb := b.isLt
  unfold charToInt
  split_ifs <;> omega

theorem escSpec_length (q b : Byte) :
    1 ≤ (escSpec q b).length ∧ (escSpec q b).length ≤ 4 := by
  unfold escSpec
  split_ifs <;> simp

/-- One iteration of the loop emits the escape of the specification for its byte. -/
theorem format_r_step_emits (sc : Bool) (q : Byte) (cur : Cursor) (b : Byte)
    (h : cur.p + 5 ≤ cur.block.length) :
    ∃ cur1, format_r_step sc q cur b = some cur1 ∧ Emits cur cur1 (escSpec q b) := by
  have c92 : charToInt sc b = 92 ↔ b = 92 := charToInt_eq_small sc b 92 (by decide)
  have c9 : charToInt sc b = 9 ↔ b = 9 := charToInt_eq_small sc b 9 (by decide)
  have c10 : charToInt sc b = 10 ↔ b = 10 := charToInt_eq_small sc b 10 (by decide)
  have c13 : charToInt sc b = 13 ↔ b = 13 := charToInt_eq_small sc b 13 (by decide)
  simp only [format_r_step, escSpec, charToInt_inj, c92, c9, c10, c13,
    charToInt_unprintable, charToInt_and_0xff]
  split_ifs
  · exact put2_emits cur 92 b (by omega)
  · exact put2_emits cur 92 116 (by omega)
  · exact put2_emits cur 92 110 (by omega)
  · exact put2_emits cur 92 114 (by omega)
  · exact sprintf_x_emits cur b.val h
  · exact put_emits cur b (by omega)

/-- The whole loop emits the escapes of all input bytes, given room for four bytes per
input byte and one more. -/
theorem format_r_loop_emits (sc : Bool) (q : Byte) (s : Str) : ∀ (cur : Cursor),
    cur.p + 4 * s.length + 1 ≤ cur.block.length →
    ∃ cur1, s.foldlM (format_r_step sc q) cur = some cur1
      ∧ Emits cur cur1 (s.flatMap (escSpec q)) := by
  induction s with
  | nil =>
    intro cur _
    exact ⟨cur, rfl, Emits.refl cur⟩
  | cons b t ih =>
    intro cur h
    simp only [List.length_cons] at h
    obtain ⟨c1, e1, m1⟩ := format_r_step_emits sc q cur b (by omega)
    have hlen := (escSpec_length q b).2
    obtain ⟨c2, e2, m2⟩ := ih c1 (by rw [m1.1, m1.2.1]; omega)
    refine ⟨c2, ?_, ?_⟩
    · simp only [List.foldlM_cons, e1]
      exact e2
    · simpa using m1.trans m2

theorem flatMap_escSpec_length (q : Byte) (s : Str) :
    s.length ≤ (s.flatMap (escSpec q)).length
      ∧ (s.flatMap (escSpec q)).length ≤ 4 * s.length := by
  induction s with
  | nil => simp
  | cons b t ih =>
    have h := escSpec_length q b
    simp only [List.flatMap_cons, List.length_append, List.length_cons]
    omega

/-- Everything `format_r` does before shrinking: it succeeds inside the reserved block of
`len_ + 4 n + 3` bytes and leaves the quoted text right after the old content. -/
theorem format_r_fill_spec (sc : Bool) (w : BufWriter) (s : Str) (hw : w.WF) :
    ∃ cur, w.format_r_fill sc s = some cur
      ∧ cur.block.length = w.len_ + 4 * s.length + 3
      ∧ cur.p = w.len_ + (reprSpec (format_r_quote s) s).length
      ∧ cur.block.take cur.p = w.content ++ reprSpec (format_r_quote s) s
      ∧ cur.hi ≤ cur.p + 1
      ∧ cur.p + 1 ≤ cur.block.length := by
  unfold BufWriter.WF at hw
  have hq := flatMap_escSpec_length (format_r_quote s) s
  have hM : (realloc w.data_ (w.len_ + (s.length * 4 + 2) + 1)).length
      = w.len_ + 4 * s.length + 3 := by rw [realloc_length]; omega
  obtain ⟨c1, e1, m1⟩ := put_emits
    { block := realloc w.data_ (w.len_ + (s.length * 4 + 2) + 1), p := w.len_, hi := 0 }
    (format_r_quote s) (by simp only [hM]; omega)
  have l1 := m1.1
  have p1 := m1.2.1
  simp only [hM, List.length_cons, List.length_nil] at l1 p1
  obtain ⟨c2, e2, m2⟩ := format_r_loop_emits sc (format_r_quote s) s c1 (by omega)
  have l2 := m2.1
  have p2 := m2.2.1
  obtain ⟨c3, e3, m3⟩ := put_emits c2 (format_r_quote s) (by omega)
  have l3 := m3.1
  have p3 := m3.2.1
  simp only [List.length_cons, List.length_nil] at p3
  obtain ⟨_, _, mt, mh⟩ := (m1.trans m2).trans m3
  have ml : c3.block.length = w.len_ + 4 * s.length + 3 := by omega
  have mp : c3.p = w.len_ + 1 + (s.flatMap (escSpec (format_r_quote s))).length + 1 := by
    omega
  have hst : c3.p < c3.block.length := by omega
  refine ⟨{ block := c3.block.set c3.p 0, p := c3.p, hi := max c3.hi (c3.p + 1) },
    ?_, ?_, ?_, ?_, ?_, ?_⟩
  · simp only [BufWriter.format_r_fill, e1, e2, e3, Option.some_bind, store_some _ _ _ hst,
      Option.map_some']
  · simp [ml]
  · simp only [mp, reprSpec, List.length_append, List.length_cons, List.length_nil]
    omega
  · simp only
    rw [take_set_of_le _ _ _ _ (le_refl _), mt]
    simp only [reprSpec, BufWriter.content, List.append_assoc]
    rw [realloc_take _ _ _ (by omega) hw]
  · simp only at mh ⊢
    omega
  · simp only [List.length_set]
    omega

/-- Effect of `format_r` on a valid buffer: the quoted text of the specification is
appended. -/
theorem format_r_spec (sc : Bool) (w : BufWriter) (s : Str) (hw : w.WF) :
    ∃ w', w.format_r sc s = some w' ∧ w'.WF
      ∧ w'.content = w.content ++ reprSpec (format_r_quote s) s
      ∧ w'.len_ = w.len_ + (reprSpec (format_r_quote s) s).length := by
  obtain ⟨cur, e, hl, hp, ht, _, hb⟩ := format_r_fill_spec sc w s hw
  refine ⟨{ data_ := realloc cur.block (cur.p + 1), len_ := cur.p }, ?_, ?_, ?_, hp⟩
  · simp only [BufWriter.format_r, e, Option.some_bind]
  · simp [BufWriter.WF, realloc_length]
  · simp only [BufWriter.content]
    rw [realloc_take _ _ _ (by omega) (by omega), ht]
    rfl

theorem format_r_quote_eq (s : Str) :
    (format_r_quote s = 34 ↔ ((39 : Byte) ∈ s ∧ (34 : Byte) ∉ s))
      ∧ (¬ ((39 : Byte) ∈ s ∧ (34 : Byte) ∉ s) → format_r_quote s = 39) := by
  unfold format_r_quote memchr
  by_cases h : (39 : Byte) ∈ s ∧ (34 : Byte) ∉ s
  · simp [h.1, h.2]
  · have h2 : ¬ (decide ((39 : Byte) ∈ s) = true ∧ ¬ decide ((34 : Byte) ∈ s) = true) := by
      simpa using h
    rw [if_neg h2]
    exact ⟨⟨fun e => absurd e (by decide), fun e => absurd e h⟩, fun _ => rfl⟩

/-- C2: on a valid buffer with content `c`, `format_r(s)` succeeds and leaves the content
`c ++ q ++ esc(s[0]) ++ ... ++ esc(s[n-1]) ++ q`, where `q` is the quote the code chose and
`esc` is the escape of the specification (`escSpec`): backslash before `q` and backslash,
the mnemonics for tab, newline and carriage return, `\xHH` with two lowercase hex digits
for every other byte below 0x20 or at or above 0x7f, and the byte itself otherwise.  It holds
whether plain `char` is signed or not. -/
theorem format_r_escapes (signedChar : Bool) (w : BufWriter) (s : Str) (hw : w.WF) :
    ∃ w', w.format_r signedChar s = some w'
      ∧ w'.content = w.content ++ [format_r_quote s]
          ++ s.flatMap (escSpec (format_r_quote s)) ++ [format_r_quote s] := by
  obtain ⟨w', e, _, hc, _⟩ := format_r_spec signedChar w s hw
  exact ⟨w', e, by rw [hc]; simp [reprSpec]⟩

/-- Instance of C2 at a concrete input: the buffer `"hi"` and the input bytes `'`, NUL, 0xc8
and backslash, with signed `char`. -/
theorem format_r_escapes_witness :
    BufWriter.hi.WF
    ∧ ∃ w', BufWriter.hi.format_r true sampleInput = some w'
      ∧ w'.content = BufWriter.hi.content ++ [format_r_quote sampleInput]
          ++ sampleInput.flatMap (escSpec (format_r_quote sampleInput))
          ++ [format_r_quote sampleInput] :=
  ⟨by decide, format_r_escapes true BufWriter.hi sampleInput (by decide)⟩

/-- C3: the bytes `format_r(s)` appends to a valid buffer start and end with the same quote
byte `q`, and `q` is the double-quote (34) exactly when `s` contains a single-quote (39) and
no double-quote; otherwise (the empty `s` included) it is the single-quote. -/
theorem format_r_quote_choice (signedChar : Bool) (w : BufWriter) (s : Str) (hw : w.WF) :
    ∃ w' q, w.format_r signedChar s = some w'
      ∧ (w'.content.drop w.content.length).head? = some q
      ∧ (w'.content.drop w.content.length).getLast? = some q
      ∧ (q = 34 ↔ ((39 : Byte) ∈ s ∧ (34 : Byte) ∉ s))
      ∧ (¬ ((39 : Byte) ∈ s ∧ (34 : Byte) ∉ s) → q = 39) := by
  obtain ⟨w', e, _, hc, _⟩ := format_r_spec signedChar w s hw
  refine ⟨w', format_r_quote s, e, ?_, ?_, (format_r_quote_eq s).1, (format_r_quote_eq s).2⟩
  · rw [hc, List.drop_left]; simp [reprSpec]
  · rw [hc, List.drop_left, reprSpec, List.getLast?_concat]

/-- Instance of C3 at a concrete input: the buffer `"hi"` and an input with a single-quote
and no double-quote. -/
theorem format_r_quote_choice_witness :
    BufWriter.hi.WF
    ∧ ∃ w' q, BufWriter.hi.format_r true sampleInput = some w'
      ∧ (w'.content.drop BufWriter.hi.content.length).head? = some q
      ∧ (w'.content.drop BufWriter.hi.content.length).getLast? = some q
      ∧ (q = 34 ↔ ((39 : Byte) ∈ sampleInput ∧ (34 : Byte) ∉ sampleInput))
      ∧ (¬ ((39 : Byte) ∈ sampleInput ∧ (34 : Byte) ∉ sampleInput) → q = 39) :=
  ⟨by decide, format_r_quote_choice true BufWriter.hi sampleInput (by decide)⟩

/-- C8 (as stated, refuted): on the empty buffer `format_r("")` appends the two bytes `''`
and sets `len_` to 2, so the buffer is not left unchanged. -/
theorem format_r_empty_input_counterexample :
    (BufWriter.empty.format_r true []).map (fun w => (w.content, w.len_))
        = some ([39, 39], 2)
      ∧ (BufWriter.empty.format_r true []).map (fun w => (w.content, w.len_))
        ≠ some (BufWriter.empty.content, BufWriter.empty.len_) := by
  decide

/-- C8 (amended): on every valid buffer `format_r` applied to the empty string succeeds and
appends exactly the two single-quote bytes `''`, so `len_` grows by 2. -/
theorem format_r_empty_input (signedChar : Bool) (w : BufWriter) (hw : w.WF) :
    ∃ w', w.format_r signedChar [] = some w' ∧ w'.content = w.content ++ [39, 39]
      ∧ w'.len_ = w.len_ + 2 := by
  obtain ⟨w', e, _, hc, hl⟩ := format_r_spec signedChar w [] hw
  exact ⟨w', e, by rw [hc]; rfl, by rw [hl]; rfl⟩

/-- Instance of the amended C8 at a concrete input: the buffer `"hi"`. -/
theorem format_r_empty_input_witness :
    BufWriter.hi.WF
    ∧ ∃ w', BufWriter.hi.format_r false [] = some w'
      ∧ w'.content = BufWriter.hi.content ++ [39, 39]
      ∧ w'.len_ = BufWriter.hi.len_ + 2 :=
  ⟨by decide, format_r_empty_input false BufWriter.hi (by decide)⟩

theorem unhexDigit_hexDigit (d : Nat) (h : d < 16) : unhexDigit (hexDigit d) = some d := by
  interval_cases d <;> decide

theorem byte_of_nibbles (b : Byte) : (Fin.ofNat (16 * (b.val / 16) + b.val % 16) : Byte) = b := by
  apply Fin.ext
  have hb := b.isLt
  have e : 16 * (b.val / 16) + b.val % 16 = b.val := Nat.div_add_mod b.val 16
  rw [e]
  simp [Fin.ofNat, Nat.mod_eq_of_lt hb]

/-- The one-item decoder inverts the escape of one byte, whatever follows it. -/
theorem unescapeStep_escSpec (q b : Byte) (rest : List Byte) (hq : q = 34 ∨ q = 39) :
    unescapeStep q (escSpec q b ++ rest) = some (b, rest) := by
  have hb := b.isLt
  unfold escSpec
  split_ifs with h1 h2 h3 h4 h5
  · have n1 : b ≠ 116 := by rcases h1 with h | h <;> rcases hq with g | g <;> simp [h, g]
    have n2 : b ≠ 110 := by rcases h1 with h | h <;> rcases hq with g | g <;> simp [h, g]
    have n3 : b ≠ 114 := by rcases h1 with h | h <;> rcases hq with g | g <;> simp [h, g]
    have n4 : b ≠ 120 := by rcases h1 with h | h <;> rcases hq with g | g <;> simp [h, g]
    simp [unescapeStep, n1, n2, n3, n4]
  · simp [unescapeStep, h2]
  · simp [unescapeStep, h3]
  · simp [unescapeStep, h4]
  · have d1 : b.val / 16 < 16 := by omega
    have d2 : b.val % 16 < 16 := by omega
    simp [unescapeStep, unhexDigit_hexDigit _ d1, unhexDigit_hexDigit _ d2, byte_of_nibbles]
  · have n1 : b ≠ 92 := fun e => h1 (Or.inr e)
    have n2 : b ≠ q := fun e => h1 (Or.inl e)
    simp [unescapeStep, n1, n2]

/-- With enough fuel the decoder recovers `s` from its escaped text and closing quote. -/
theorem unescape_flatMap_escSpec (q : Byte) (hq : q = 34 ∨ q = 39) (s : Str) :
    ∀ fuel, s.length + 1 ≤ fuel →
      unescape q fuel (s.flatMap (escSpec q) ++ [q]) = some s := by
  induction s with
  | nil =>
    intro fuel hf
    obtain ⟨f, rfl⟩ : ∃ f, fuel = f + 1 := ⟨fuel - 1, by omega⟩
    simp [unescape]
  | cons b t ih =>
    intro fuel hf
    simp only [List.length_cons] at hf
    obtain ⟨f, rfl⟩ : ∃ f, fuel = f + 1 := ⟨fuel - 1, by omega⟩
    have hne : escSpec q b ++ (t.flatMap (escSpec q) ++ [q]) ≠ [q] := by
      intro e
      have hl := congrArg List.length e
      have h1 := (escSpec_length q b).1
      simp only [List.length_append, List.length_cons, List.length_nil] at hl
      omega
    simp only [List.flatMap_cons, List.append_assoc, unescape, if_neg hne,
      unescapeStep_escSpec q b _ hq, Option.some_bind, ih f (by omega), Option.map_some']

theorem format_r_quote_cases (s : Str) : format_r_quote s = 34 ∨ format_r_quote s = 39 := by
  unfold format_r_quote
  split_ifs
  · exact Or.inl rfl
  · exact Or.inr rfl

/-- The decoder recovers `s` from the quoted text of the specification. -/
theorem unrepr_reprSpec (s : Str) : unrepr (reprSpec (format_r_quote s) s) = some s := by
  have hq := flatMap_escSpec_length (format_r_quote s) s
  simp only [reprSpec, List.singleton_append, List.cons_append, unrepr]
  exact unescape_flatMap_escSpec _ (format_r_quote_cases s) s _
    (by simp only [List.length_append, List.length_cons, List.length_nil]; omega)

/-- C10: the encoding of `format_r` is unambiguous.  On a valid buffer, the decoder `unrepr`
recovers `s` from the bytes that `format_r(s)` appends, for every `s`; hence two inputs for
which `format_r` appends the same bytes to the same buffer are equal. -/
theorem format_r_injective (signedChar : Bool) (w : BufWriter) (s1 s2 : Str) (hw : w.WF) :
    (∃ w1, w.format_r signedChar s1 = some w1
        ∧ unrepr (w1.content.drop w.content.length) = some s1)
      ∧ (∀ w1 w2, w.format_r signedChar s1 = some w1 → w.format_r signedChar s2 = some w2 →
          w1.content.drop w.content.length = w2.content.drop w.content.length → s1 = s2)
      ∧ (w.format_r signedChar s1 = w.format_r signedChar s2 → s1 = s2) := by
  obtain ⟨v1, e1, _, c1, _⟩ := format_r_spec signedChar w s1 hw
  obtain ⟨v2, e2, _, c2, _⟩ := format_r_spec signedChar w s2 hw
  have d1 : unrepr (v1.content.drop w.content.length) = some s1 := by
    rw [c1, List.drop_left]; exact unrepr_reprSpec s1
  have d2 : unrepr (v2.content.drop w.content.length) = some s2 := by
    rw [c2, List.drop_left]; exact unrepr_reprSpec s2
  refine ⟨⟨v1, e1, d1⟩, ?_, ?_⟩
  · intro w1 w2 h1 h2 h
    rw [e1] at h1
    rw [e2] at h2
    cases h1
    cases h2
    rw [h, d2] at d1
    exact (Option.some.inj d1).symm
  · intro h
    rw [e1, e2] at h
    cases h
    rw [d2] at d1
    exact (Option.some.inj d1).symm

/-- Instance of C10 at a concrete input: the buffer `"hi"` and two inputs that differ in
their first byte. -/
theorem format_r_injective_witness :
    BufWriter.hi.WF
    ∧ ((∃ w1, BufWriter.hi.format_r true sampleInput = some w1
        ∧ unrepr (w1.content.drop BufWriter.hi.content.length) = some sampleInput)
      ∧ (∀ w1 w2, BufWriter.hi.format_r true sampleInput = some w1 →
          BufWriter.hi.format_r true sampleInput2 = some w2 →
          w1.content.drop BufWriter.hi.content.length
            = w2.content.drop BufWriter.hi.content.length →
          sampleInput = sampleInput2)
      ∧ (BufWriter.hi.format_r true sampleInput = BufWriter.hi.format_r true sampleInput2 →
          sampleInput = sampleInput2)) :=
  ⟨by decide, format_r_injective true BufWriter.hi sampleInput sampleInput2 (by decide)⟩

/-! ## `format_d` -/

theorem decValue_append_singleton (ds : List Byte) (d : Byte) :
    decValue (ds ++ [d]) = 10 * decValue ds + (d.val - 48) := by
  simp [decValue, List.foldl_append]

theorem digit_char_val (n : Nat) : (Fin.ofNat (48 + n % 10) : Byte).val = 48 + n % 10 := by
  have h : n % 10 < 10 := Nat.mod_lt _ (by decide)
  simp only [Fin.ofNat, Nat.succ_eq_add_one]
  omega

/-- The digit loop yields, in front of `acc`, a nonempty digit string that denotes `n`, has
at most `k` characters when `n < 10 ^ k`, and starts with `0` only for `n = 0`. -/
theorem decDigits_spec : ∀ (fuel n : Nat) (acc : List Byte), 1 ≤ fuel → n < 10 ^ fuel →
    ∃ ds, decDigits fuel n acc = ds ++ acc ∧ decValue ds = n ∧ 1 ≤ ds.length
      ∧ (∀ k, 1 ≤ k → n < 10 ^ k → ds.length ≤ k)
      ∧ (n ≠ 0 → ds.head? ≠ some 48) := by
  intro fuel
  induction fuel with
  | zero => intro n acc h; omega
  | succ f ih =>
    intro n acc _ hn
    by_cases h0 : n / 10 = 0
    · refine ⟨[Fin.ofNat (48 + n % 10)], ?_, ?_, by simp, ?_, ?_⟩
      · simp [decDigits, h0]
      · have hv := digit_char_val n
        simp only [decValue, List.foldl_cons, List.foldl_nil, hv]
        omega
      · intro k hk _
        simpa using hk
      · intro hne he
        have hv := digit_char_val n
        simp only [List.head?_cons, Option.some.injEq] at he
        rw [he] at hv
        simp at hv
        omega
    · have hf : 1 ≤ f := by
        rcases Nat.eq_zero_or_pos f with h | h
        · subst h
          simp at hn
          omega
        · exact h
      have hlt : n / 10 < 10 ^ f := by
        rw [pow_succ] at hn
        omega
      obtain ⟨ds, e, hv, hl, hk, hh⟩ := ih (n / 10) (Fin.ofNat (48 + n % 10) :: acc) hf hlt
      refine ⟨ds ++ [Fin.ofNat (48 + n % 10)], ?_, ?_, by simp, ?_, ?_⟩
      · simp [decDigits, h0, e]
      · rw [decValue_append_singleton, hv, digit_char_val]
        omega
      · intro k hk1 hnk
        have hk2 : 2 ≤ k := by
          rcases Nat.lt_or_ge k 2 with h | h
          · have : k = 1 := by omega
            subst this
            simp at hnk
            omega
          · exact h
        obtain ⟨j, rfl⟩ : ∃ j, k = j + 1 := ⟨k - 1, by omega⟩
        have := hk j (by omega) (by rw [pow_succ] at hnk; omega)
        simp only [List.length_append, List.length_cons, List.length_nil]
        omega
      · intro _
        have := hh h0
        cases ds with
        | nil => simp at hl
        | cons a t => simpa using this

theorem decNat_spec (n : Nat) :
    decValue (decNat n) = n ∧ 1 ≤ (decNat n).length
      ∧ (∀ k, 1 ≤ k → n < 10 ^ k → (decNat n).length ≤ k)
      ∧ (n ≠ 0 → (decNat n).head? ≠ some 48) := by
  have hn : n < 10 ^ (n + 1) :=
    lt_trans (Nat.lt_pow_self (by decide) n) (Nat.pow_lt_pow_right (by decide) (by omega))
  obtain ⟨ds, e, h⟩ := decDigits_spec (n + 1) n [] (by omega) hn
  simp only [List.append_nil] at e
  unfold decNat
  rw [e]
  exact h

theorem dec_length_le (i : Int) (hlo : -2 ^ 31 ≤ i) (hhi : i < 2 ^ 31) :
    (dec i).length ≤ 11 := by
  have h := (decNat_spec i.natAbs).2.2.1 10 (by decide) (by omega)
  unfold dec
  split_ifs
  · simp only [List.length_cons]; omega
  · omega

/-- Effect of `format_d` when the text and its NUL fit in `kIntBufSize` bytes. -/
theorem format_d_spec (kIntBufSize : Nat) (w : BufWriter) (i : Int) (hw : w.WF)
    (hk : (dec i).length + 1 ≤ kIntBufSize) :
    ∃ w', w.format_d kIntBufSize i = some w' ∧ w'.WF ∧ w'.content = w.content ++ dec i
      ∧ w'.len_ = w.len_ + (dec i).length := by
  unfold BufWriter.WF at hw
  have hsz : kIntBufSize ≠ 0 := by omega
  have htk : (dec i).take (kIntBufSize - 1) = dec i := List.take_of_length_le (by omega)
  have hM := realloc_length w.data_ (w.len_ + kIntBufSize)
  have hrun : w.format_d kIntBufSize i = some
      { data_ := (realloc w.data_ (w.len_ + kIntBufSize)).take w.len_ ++ (dec i ++ [0])
          ++ (realloc w.data_ (w.len_ + kIntBufSize)).drop (w.len_ + (dec i ++ [0]).length),
        len_ := w.len_ + (dec i).length } := by
    simp only [BufWriter.format_d, snprintf_d, if_neg hsz, htk]
    rw [memcpy_some _ _ _ (by rw [hM]; simp; omega)]
    rfl
  refine ⟨_, hrun, ?_, ?_, rfl⟩
  · simp only [BufWriter.WF, List.length_append, List.length_take, List.length_drop, hM,
      List.length_cons, List.length_nil]
    omega
  · simp only [BufWriter.content]
    rw [take_patch _ _ _ _ _ (by omega) (by simp), List.take_left,
      realloc_take _ _ _ (by omega) hw]

theorem decDigits_digits : ∀ (fuel n : Nat) (acc : List Byte),
    (∀ d ∈ acc, 48 ≤ d.val ∧ d.val ≤ 57) →
    ∀ d ∈ decDigits fuel n acc, 48 ≤ d.val ∧ d.val ≤ 57 := by
  intro fuel
  induction fuel with
  | zero => intro n acc h; simpa [decDigits] using h
  | succ f ih =>
    intro n acc h
    have hacc : ∀ d ∈ (Fin.ofNat (48 + n % 10) : Byte) :: acc,
        48 ≤ d.val ∧ d.val ≤ 57 := by
      intro d hd
      rcases List.mem_cons.1 hd with e | e
      · have hv := digit_char_val n
        have : n % 10 < 10 := Nat.mod_lt _ (by decide)
        rw [e]
        omega
      · exact h d e
    unfold decDigits
    split_ifs
    · exact hacc
    · exact ih _ _ hacc

/-- C4: for a valid buffer, `kIntBufSize ≥ 12` and a 32-bit signed `i`, `format_d(i)`
succeeds, leaves the content `c ++ dec(i)` and increases `len_` by exactly `|dec(i)|`, which
is less than the `kIntBufSize` bytes reserved.  Here `dec(i)` is the decimal text of `i`:
a `-` in front for a negative value, then digit characters that denote `|i|`, without a
leading zero unless `i = 0`, whose text is `"0"`. -/
theorem format_d_appends_decimal (kIntBufSize : Nat) (w : BufWriter) (i : Int)
    (hw : w.WF) (hk : 12 ≤ kIntBufSize) (hlo : -2 ^ 31 ≤ i) (hhi : i < 2 ^ 31) :
    (∃ w', w.format_d kIntBufSize i = some w' ∧ w'.content = w.content ++ dec i
        ∧ w'.len_ = w.len_ + (dec i).length ∧ w'.content.length = w'.len_)
      ∧ (dec i).length < kIntBufSize
      ∧ (dec i = if i < 0 then 45 :: decNat i.natAbs else decNat i.natAbs)
      ∧ (∀ d ∈ decNat i.natAbs, 48 ≤ d.val ∧ d.val ≤ 57)
      ∧ decValue (decNat i.natAbs) = i.natAbs
      ∧ (i ≠ 0 → (decNat i.natAbs).head? ≠ some 48)
      ∧ decNat 0 = [48] := by
  have hlen := dec_length_le i hlo hhi
  obtain ⟨w', e, hwf, hc, hl⟩ := format_d_spec kIntBufSize w i hw (by omega)
  have hs := decNat_spec i.natAbs
  refine ⟨⟨w', e, hc, hl, content_length w' hwf⟩, by omega, ?_, ?_, hs.1, ?_, by decide⟩
  · unfold dec
    split_ifs <;> rfl
  · exact decDigits_digits _ _ [] (by simp)
  · intro hne
    exact hs.2.2.2 (by omega)

/-- Instance of C4 at a concrete input: the buffer `"hi"`, `kIntBufSize = 12` and the
smallest `int`. -/
theorem format_d_appends_decimal_witness :
    BufWriter.hi.WF ∧ 12 ≤ 12 ∧ -2 ^ 31 ≤ INT_MIN ∧ INT_MIN < 2 ^ 31
    ∧ ((∃ w', BufWriter.hi.format_d 12 INT_MIN = some w'
        ∧ w'.content = BufWriter.hi.content ++ dec INT_MIN
        ∧ w'.len_ = BufWriter.hi.len_ + (dec INT_MIN).length ∧ w'.content.length = w'.len_)
      ∧ (dec INT_MIN).length < 12
      ∧ (dec INT_MIN = if INT_MIN < 0
          then 45 :: decNat INT_MIN.natAbs else decNat INT_MIN.natAbs)
      ∧ (∀ d ∈ decNat INT_MIN.natAbs, 48 ≤ d.val ∧ d.val ≤ 57)
      ∧ decValue (decNat INT_MIN.natAbs) = INT_MIN.natAbs
      ∧ (INT_MIN ≠ 0 → (decNat INT_MIN.natAbs).head? ≠ some 48)
      ∧ decNat 0 = [48]) :=
  ⟨by decide, by decide, by decide, by decide,
    format_d_appends_decimal 12 BufWriter.hi INT_MIN (by decide) (by decide) (by decide)
      (by decide)⟩

end mylib

namespace pyos

/-! ## The pending-signal queue -/

theorem take_take_append (n : Nat) (a b : List Int) :
    ((a.take n) ++ b).take n = (a ++ b).take n := by
  rw [List.take_append_eq_append_take, List.take_append_eq_append_take, List.take_take,
    Nat.min_self, List.length_take]
  rcases Nat.le_total n a.length with h | h
  · rw [Nat.min_eq_left h]
    simp [Nat.sub_eq_zero_of_le h]
  · rw [Nat.min_eq_right h]

theorem update_pending (SIGWINCH : Int) (s : SignalSafe) (x : Int)
    (h : s.pending_signals_.length ≤ s.capacity_) :
    (s.UpdateFromSignalHandler SIGWINCH x).pending_signals_
      = (s.pending_signals_ ++ [x]).take s.capacity_ := by
  simp only [SignalSafe.UpdateFromSignalHandler]
  split_ifs with hlt
  · rw [List.take_of_length_le (by simp; omega)]
  · have he : s.capacity_ = s.pending_signals_.length := by omega
    rw [he, List.take_left]

/-- Effect of a run of deliveries on the queue, the capacity and the resize code. -/
theorem deliver_spec (SIGWINCH : Int) (sigs : List Int) : ∀ (s : SignalSafe),
    s.pending_signals_.length ≤ s.capacity_ →
    (s.deliver SIGWINCH sigs).pending_signals_ = (s.pending_signals_ ++ sigs).take s.capacity_
      ∧ (s.deliver SIGWINCH sigs).capacity_ = s.capacity_
      ∧ (s.deliver SIGWINCH sigs).sigwinch_code_ = s.sigwinch_code_ := by
  induction sigs with
  | nil =>
    intro s h
    simp [SignalSafe.deliver, List.take_of_length_le h]
  | cons x t ih =>
    intro s h
    have hp := update_pending SIGWINCH s x h
    have hc : (s.UpdateFromSignalHandler SIGWINCH x).capacity_ = s.capacity_ := rfl
    have hw : (s.UpdateFromSignalHandler SIGWINCH x).sigwinch_code_ = s.sigwinch_code_ := rfl
    obtain ⟨i1, i2, i3⟩ := ih (s.UpdateFromSignalHandler SIGWINCH x)
      (by rw [hp, hc]; simp)
    simp only [SignalSafe.deliver, List.foldl_cons] at i1 i2 i3 ⊢
    refine ⟨?_, by rw [i2, hc], by rw [i3, hw]⟩
    rw [i1, hp, hc, take_take_append]
    simp

theorem deliver_append (SIGWINCH : Int) (s : SignalSafe) (sigs : List Int) (x : Int) :
    s.deliver SIGWINCH (sigs ++ [x])
      = (s.deliver SIGWINCH sigs).UpdateFromSignalHandler SIGWINCH x := by
  simp [SignalSafe.deliver, List.foldl_append]

/-- C5: starting from an empty pending queue, after any `N ≤ capacity` deliveries
`TakePendingSignals` returns exactly the delivered signal numbers in delivery order and
leaves the queue empty: the next `TakePendingSignals` returns the empty list. -/
theorem take_pending_signals_fifo (SIGWINCH : Int) (s : SignalSafe) (sigs : List Int)
    (hempty : s.pending_signals_ = []) (hN : sigs.length ≤ s.capacity_) :
    (s.deliver SIGWINCH sigs).TakePendingSignals.1 = sigs
      ∧ (s.deliver SIGWINCH sigs).TakePendingSignals.2.pending_signals_ = []
      ∧ (s.deliver SIGWINCH sigs).TakePendingSignals.2.TakePendingSignals.1 = [] := by
  obtain ⟨h1, _, _⟩ := deliver_spec SIGWINCH sigs s (by rw [hempty]; simp)
  refine ⟨?_, rfl, rfl⟩
  simp only [SignalSafe.TakePendingSignals]
  rw [h1, hempty, List.nil_append, List.take_of_length_le hN]

/-- Instance of C5 at a concrete input: two deliveries to an empty queue of capacity
2. -/
theorem take_pending_signals_fifo_witness :
    SignalSafe.small.pending_signals_ = [] ∧ [10, 12].length ≤ SignalSafe.small.capacity_
    ∧ ((SignalSafe.small.deliver 28 [10, 12]).TakePendingSignals.1 = [10, 12]
      ∧ (SignalSafe.small.deliver 28 [10, 12]).TakePendingSignals.2.pending_signals_ = []
      ∧ (SignalSafe.small.deliver 28 [10, 12]).TakePendingSignals.2.TakePendingSignals.1 = []) :=
  ⟨by decide, by decide,
    take_pending_signals_fifo 28 SignalSafe.small [10, 12] (by decide) (by decide)⟩

/-- C6 (as stated, refuted): a resize signal (28) delivered to the queue at startup, whose
resize code is still the sentinel (-1), leaves `LastSignal()` equal to the sentinel and
not to the signal number delivered. -/
theorem last_signal_latch_counterexample :
    ((InitSignalSafe (-1) 1024).UpdateFromSignalHandler 28 28).LastSignal = -1
      ∧ ((InitSignalSafe (-1) 1024).UpdateFromSignalHandler 28 28).LastSignal ≠ 28 := by
  decide

/-- C6 (amended): for a queue within its capacity and any run of deliveries `sigs`, of
any length, followed by one more delivery `x`: every delivery yields a state (the handler
is a total function), the queue holds the first `capacity` entries of the old queue followed
by `sigs`, so it never exceeds the capacity, the old entries stay in front in order and
the deliveries that arrive while it is full are dropped; and after the delivery of `x`,
`LastSignal()` is `x` when `x` is not the resize signal, and the configured resize code when
it is, whether the queue was full or not. -/
theorem last_signal_latch_under_overflow (SIGWINCH : Int) (s : SignalSafe) (sigs : List Int)
    (x : Int) (hcap : s.pending_signals_.length ≤ s.capacity_) :
    (s.deliver SIGWINCH sigs).pending_signals_
        = (s.pending_signals_ ++ sigs).take s.capacity_
      ∧ (s.deliver SIGWINCH sigs).pending_signals_.length ≤ s.capacity_
      ∧ (s.deliver SIGWINCH sigs).capacity_ = s.capacity_
      ∧ (s.deliver SIGWINCH sigs).pending_signals_.take s.pending_signals_.length
        = s.pending_signals_
      ∧ (x ≠ SIGWINCH → (s.deliver SIGWINCH (sigs ++ [x])).LastSignal = x)
      ∧ (x = SIGWINCH → (s.deliver SIGWINCH (sigs ++ [x])).LastSignal = s.sigwinch_code_) := by
  obtain ⟨h1, h2, h3⟩ := deliver_spec SIGWINCH sigs s hcap
  refine ⟨h1, ?_, h2, ?_, ?_, ?_⟩
  · rw [h1, List.length_take]; omega
  · rw [h1, List.take_take, Nat.min_eq_left hcap, List.take_left]
  · intro hx
    rw [deliver_append]
    simp [SignalSafe.LastSignal, SignalSafe.UpdateFromSignalHandler, hx]
  · intro hx
    rw [deliver_append]
    simp [SignalSafe.LastSignal, SignalSafe.UpdateFromSignalHandler, hx, h3]

/-- Instance of the amended C6 at a concrete input: three deliveries, then a fourth, to
an empty queue of capacity 2. -/
theorem last_signal_latch_under_overflow_witness :
    SignalSafe.small.pending_signals_.length ≤ SignalSafe.small.capacity_
    ∧ ((SignalSafe.small.deliver 28 [10, 12, 2]).pending_signals_
        = (SignalSafe.small.pending_signals_ ++ [10, 12, 2]).take SignalSafe.small.capacity_
      ∧ (SignalSafe.small.deliver 28 [10, 12, 2]).pending_signals_.length
        ≤ SignalSafe.small.capacity_
      ∧ (SignalSafe.small.deliver 28 [10, 12, 2]).capacity_ = SignalSafe.small.capacity_
      ∧ (SignalSafe.small.deliver 28 [10, 12, 2]).pending_signals_.take
          SignalSafe.small.pending_signals_.length
        = SignalSafe.small.pending_signals_
      ∧ ((17 : Int) ≠ 28 →
          (SignalSafe.small.deliver 28 ([10, 12, 2] ++ [17])).LastSignal = 17)
      ∧ ((17 : Int) = 28 → (SignalSafe.small.deliver 28 ([10, 12, 2] ++ [17])).LastSignal
          = SignalSafe.small.sigwinch_code_)) :=
  ⟨by decide, last_signal_latch_under_overflow 28 SignalSafe.small [10, 12, 2] 17 (by decide)⟩

/-- C7: with an empty queue of capacity at least 2 and the resize code still the untrapped
sentinel, which differs from `SIGWINCH`, a delivery of `SIGWINCH` makes `LastSignal()` the
sentinel and not `SIGWINCH`; after `SetSigWinchCode(code)` a second delivery makes it `code`;
both deliveries queued the real signal number, so `TakePendingSignals` returns
`[SIGWINCH, SIGWINCH]`. -/
theorem sigwinch_latch (SIGWINCH UNTRAPPED_SIGWINCH code : Int) (s : SignalSafe)
    (hne : UNTRAPPED_SIGWINCH ≠ SIGWINCH) (hempty : s.pending_signals_ = [])
    (hcode : s.sigwinch_code_ = UNTRAPPED_SIGWINCH) (hcap : 2 ≤ s.capacity_) :
    (s.UpdateFromSignalHandler SIGWINCH SIGWINCH).LastSignal = UNTRAPPED_SIGWINCH
      ∧ (s.UpdateFromSignalHandler SIGWINCH SIGWINCH).LastSignal ≠ SIGWINCH
      ∧ (((s.UpdateFromSignalHandler SIGWINCH SIGWINCH).SetSigWinchCode
            code).UpdateFromSignalHandler SIGWINCH SIGWINCH).LastSignal = code
      ∧ (((s.UpdateFromSignalHandler SIGWINCH SIGWINCH).SetSigWinchCode
            code).UpdateFromSignalHandler SIGWINCH SIGWINCH).TakePendingSignals.1
          = [SIGWINCH, SIGWINCH] := by
  have h1 : (0 : Nat) < s.capacity_ := by omega
  have h2 : (1 : Nat) < s.capacity_ := by omega
  refine ⟨?_, ?_, ?_, ?_⟩
  · simp [SignalSafe.LastSignal, SignalSafe.UpdateFromSignalHandler, hcode]
  · simp [SignalSafe.LastSignal, SignalSafe.UpdateFromSignalHandler, hcode, hne]
  · simp [SignalSafe.LastSignal, SignalSafe.UpdateFromSignalHandler,
      SignalSafe.SetSigWinchCode]
  · simp [SignalSafe.TakePendingSignals, SignalSafe.UpdateFromSignalHandler,
      SignalSafe.SetSigWinchCode, hempty, h1, h2]

/-- Instance of C7 at a concrete input: resize signal 28, sentinel -1, and the code 28 set after
the first delivery, on an empty queue of capacity 2. -/
theorem sigwinch_latch_witness :
    (-1 : Int) ≠ 28 ∧ SignalSafe.small.pending_signals_ = []
    ∧ SignalSafe.small.sigwinch_code_ = -1
    ∧ 2 ≤ SignalSafe.small.capacity_
    ∧ ((SignalSafe.small.UpdateFromSignalHandler 28 28).LastSignal = -1
      ∧ (SignalSafe.small.UpdateFromSignalHandler 28 28).LastSignal ≠ 28
      ∧ (((SignalSafe.small.UpdateFromSignalHandler 28 28).SetSigWinchCode
            28).UpdateFromSignalHandler 28 28).LastSignal = 28
      ∧ (((SignalSafe.small.UpdateFromSignalHandler 28 28).SetSigWinchCode
            28).UpdateFromSignalHandler 28 28).TakePendingSignals.1 = [28, 28]) :=
  ⟨by decide, by decide, by decide, by decide,
    sigwinch_latch 28 (-1) 28 SignalSafe.small (by decide) (by decide) (by decide) (by decide)⟩

end pyos
